import Mathlib

/-!
Verification of the script-execution engine of the `jira-cli` fork
(package `script`, file `internal/cmd/issue/tclog/tclog.go`):
variable resolution (`Script.SetupArgs`), recursive interpolation
(`interpolateVars`), action-to-argument translation and the driver loop
(`runScript`).  Each Go function is shallowly embedded as an executable
Lean definition; external collaborators (the user-directory lookup and
the dispatched subcommands) are modelled as injected oracles, mirroring
the narrow interfaces they expose in the source.
-/

/-- Error values of the script engine.  Each constructor corresponds to one
`fmt.Errorf` site in the Go source (or to an error propagated verbatim from
an external collaborator), carrying the data interpolated into the message. -/
inductive ScriptError where
  /-- Go: `"unknown variable %v in script"` (interpolation). -/
  | undefinedVariable (name : String)
  /-- Go: `"unexpected script data of type %T"` (interpolation, default arm). -/
  | unsupportedType
  /-- Go: `"unknown built-in variable %v"` (resolution). -/
  | unknownDirective (val : String)
  /-- Go: `"missing command line argument %v: %v"` (resolution). -/
  | missingArgument (n : Int) (key : String)
  /-- Go: `"'custom' should contain a map from custom field name to value"`. -/
  | customNotMap
  /-- Go: `"script contains an action with no 'action' property"`. -/
  | missingAction
  /-- Go: `"script contains an action with an invalid 'action' property: %v"`. -/
  | invalidAction (v : String)
  /-- Failure of `root.Find` when locating the subcommand. -/
  | subcommandNotFound (name : String)
  /-- An error returned by an external collaborator (user lookup, user
  selection, or the dispatched subcommand execution), propagated verbatim. -/
  | externalFailure (msg : String)
deriving DecidableEq

/-- Dynamic values of the script, the shallow embedding of Go's `any` as it
occurs in a decoded YAML script: a string scalar, an ordered sequence, a
mapping (kept as an ordered association list), or any other scalar
(number, boolean, ...) represented by `raw` carrying its printed token,
which is what both `fmt.Sprint` and `json.Marshal` emit for it. -/
inductive Val where
  | str (s : String)
  | seq (l : List Val)
  | vmap (m : List (String × Val))
  | raw (s : String)

/-- The `define` mapping of a script: Go's `map[string]string`, embedded as an
association list (Go map keys are unique, which theorems assume as `Nodup`
where it matters). -/
abbrev Define := List (String × String)

/-- Lookup in an association list, first binding wins (Go map read). -/
def defLookup (key : String) : Define → Option String
  | [] => none
  | (k, v) :: rest => if k = key then some v else defLookup key rest

/-- Write to an association list: replace the first binding of `key`, or
append a new one (Go map write). -/
def defInsert (key v : String) : Define → Define
  | [] => [(key, v)]
  | (k, w) :: rest =>
    if k = key then (key, v) :: rest else (k, w) :: defInsert key v rest

/-- Lookup of an action field, first binding wins (Go map read on
`map[string]any`). -/
def lookupVal (key : String) : List (String × Val) → Option Val
  | [] => none
  | (k, v) :: rest => if k = key then some v else lookupVal key rest

/-- A word character of the variable-reference regexp `\$\w+`: Go's `\w` is
ASCII `[0-9A-Za-z_]`. -/
def isWordChar (c : Char) : Bool := c.isAlphanum || c == '_'

/-- String interpolation, the `case string` arm of Go `interpolateVars`: scan
left to right; at `$` followed by at least one word character, the maximal
word-character run is the variable name (the leftmost-longest match of
`\$\w+`); the resolved value is spliced in and is not rescanned; all other
characters are copied verbatim; a name absent from `d` is an error. -/
def scanChars (d : Define) (cs : List Char) : Except ScriptError (List Char) :=
  match cs with
  | [] => .ok []
  | '$' :: rest =>
    let name := rest.takeWhile isWordChar
    if name.isEmpty then
      (fun t => '$' :: t) <$> scanChars d rest
    else
      match defLookup (String.mk name) d with
      | none => .error (.undefinedVariable (String.mk name))
      | some v => (fun t => v.data ++ t) <$> scanChars d (rest.drop name.length)
  | c :: rest => (fun t => c :: t) <$> scanChars d rest
termination_by cs.length
decreasing_by
  all_goals simp [List.length_drop]
  all_goals omega

/-- The variable names referenced in a string, in scan order: the names of
the matches of `\$\w+` that `scanChars` resolves, following exactly its
scanning structure. -/
def scanRefs (cs : List Char) : List String :=
  match cs with
  | [] => []
  | '$' :: rest =>
    let name := rest.takeWhile isWordChar
    if name.isEmpty then scanRefs rest
    else String.mk name :: scanRefs (rest.drop name.length)
  | _ :: rest => scanRefs rest
termination_by cs.length
decreasing_by
  all_goals simp [List.length_drop]
  all_goals omega

mutual
/-- Go `interpolateVars`: strings are scanned for `$name` references,
sequences are mapped element-wise, mappings value-wise; any other value
is the `"unexpected script data of type %T"` error. -/
def interpolateVars (o : Val) (d : Define) : Except ScriptError Val :=
  match o with
  | .str s => (fun cs => Val.str (String.mk cs)) <$> scanChars d s.data
  | .seq l => Val.seq <$> interpList l d
  | .vmap m => Val.vmap <$> interpMapVals m d
  | .raw _ => .error .unsupportedType

/-- The `case []any` arm of Go `interpolateVars`: element-wise, first error
aborts. -/
def interpList (l : List Val) (d : Define) : Except ScriptError (List Val) :=
  match l with
  | [] => .ok []
  | v :: vs =>
    match interpolateVars v d with
    | .error e => .error e
    | .ok nv =>
      match interpList vs d with
      | .error e => .error e
      | .ok nvs => .ok (nv :: nvs)

/-- The `case map[string]any` arm of Go `interpolateVars`: value-wise over
the entries, keys kept, first error aborts. -/
def interpMapVals (m : List (String × Val)) (d : Define) :
    Except ScriptError (List (String × Val)) :=
  match m with
  | [] => .ok []
  | (k, v) :: es =>
    match interpolateVars v d with
    | .error e => .error e
    | .ok nv =>
      match interpMapVals es d with
      | .error e => .error e
      | .ok nes => .ok ((k, nv) :: nes)
end

/-- Byte-wise lexicographic `≤` on strings as character lists, the order Go's
`cmp.Compare` induces on `string` (for valid UTF-8, byte order and
code-point order agree). -/
def strLeB : List Char → List Char → Bool
  | [], _ => true
  | _ :: _, [] => false
  | a :: as, b :: bs =>
    if a.toNat < b.toNat then true
    else if b.toNat < a.toNat then false
    else strLeB as bs

/-- The raw directive value of a variable: Go `s.Define[key]` (a Go map read
of an absent key yields the zero value `""`). -/
def valOf (d : Define) (k : String) : String := (defLookup k d).getD ""

/-- The comparison `SetupArgs` sorts the variable names by: compare the raw
`Define` values of the two names (Go
`cmp.Compare(s.Define[a], s.Define[b])`). -/
def keyLe (d : Define) (a b : String) : Prop :=
  strLeB (valOf d a).data (valOf d b).data = true

instance (d : Define) : DecidableRel (keyLe d) := fun a b =>
  instDecidableEqBool (strLeB (valOf d a).data (valOf d b).data) true

/-- The visiting order of `SetupArgs`: the variable names sorted by their raw
directive values (lines 283-289 of the source: collect the keys, then
`slices.SortFunc` comparing `s.Define[a]` with `s.Define[b]`). -/
def sortedKeys (d : Define) : List String :=
  List.insertionSort (keyLe d) (d.map Prod.fst)

/-- Value of a digit run, most significant first. -/
def digitsVal (ds : List Char) : Nat :=
  ds.foldl (fun acc c => acc * 10 + (c.toNat - 48)) 0

/-- Go `strconv.Atoi`: an optional single `+` or `-` sign, then a non-empty
run of ASCII digits, and the value must fit a 64-bit signed integer;
anything else is an error (`none`). -/
def atoiChars (cs : List Char) : Option Int :=
  match cs with
  | [] => none
  | c :: rest =>
    let sign : Int := if c = '-' then -1 else 1
    let ds : List Char := if c = '+' ∨ c = '-' then rest else c :: rest
    if ds.isEmpty then none
    else if ds.all Char.isDigit then
      let v : Int := sign * (digitsVal ds : Int)
      if v < -(2 ^ 63) ∨ 2 ^ 63 - 1 < v then none else some v
    else none

/-- A Jira user as the resolver sees it; only the `Name` field is consumed
(`user.Name` is what resolution stores into `Define`). -/
structure User where
  name : String

/-- The narrow interface of the user-directory collaborator
(`cmdcommon.UserLookup`): interactive selection, current-user lookup and
search, each a blocking call that may fail.  Embedded as a pure oracle. -/
structure UserLookup where
  selectUser : String → Except ScriptError String
  findMe : Except ScriptError User
  findUser : String → Except ScriptError User

/-- The sentinel choice `cmdcommon.OptionMe` offered by `SelectUser`. -/
def optionMe : String := "Me"

/-- Outcome of resolving one variable: a new value, a returned error, or a
Go runtime panic (out-of-range indexing). -/
inductive ResolveOut where
  | ok (v : String)
  | fail (e : ScriptError)
  | panicked (msg : String)
deriving DecidableEq

/-- The per-variable body of the `SetupArgs` loop (lines 291-332).  `val[0]`
is read with no length guard, so an empty value panics.  A leading `~`
starts a directive; `varname := val[1:]`; a second `~` assigns
`varname[1:]` (so both leading sentinels are dropped); `choose_user` and
`me` go through the user-lookup collaborator; otherwise the remainder must
`Atoi`-parse, the argument count is guarded by `len(args) < ival`, and
`args[ival-1]` is read, which panics when `ival < 1`.  A value without the
sentinel is left as is. -/
def resolveValue (ul : UserLookup) (args : List String) (key val : String) :
    ResolveOut :=
  match val.data with
  | [] => .panicked "index out of range"
  | c :: varname =>
    if c = '~' then
      if varname.head? = some '~' then .ok (String.mk varname.tail)
      else if String.mk varname = "choose_user" then
        match ul.selectUser ("Select user for " ++ key ++ ":") with
        | .error e => .fail e
        | .ok choice =>
          if choice = optionMe then
            match ul.findMe with
            | .error e => .fail e
            | .ok user => .ok user.name
          else
            match ul.findUser choice with
            | .error e => .fail e
            | .ok user => .ok user.name
      else if String.mk varname = "me" then
        match ul.findMe with
        | .error e => .fail e
        | .ok user => .ok user.name
      else
        match atoiChars varname with
        | none => .fail (.unknownDirective val)
        | some ival =>
          if (args.length : Int) < ival then .fail (.missingArgument ival key)
          else if ival < 1 then .panicked "index out of range"
          else .ok (args.getD (ival - 1).toNat "")
    else .ok val

/-- Outcome of `SetupArgs`: the resolved mapping, a returned error, or a
panic. -/
inductive SetupResult where
  | ok (d : Define)
  | fail (e : ScriptError)
  | panicked (msg : String)
deriving DecidableEq

/-- The `SetupArgs` loop: visit the given keys in order, read the current
value of each, resolve it, and write the result back before the next key. -/
def setupLoop (ul : UserLookup) (args : List String) :
    List String → Define → SetupResult
  | [], d => .ok d
  | k :: ks, d =>
    match resolveValue ul args k (valOf d k) with
    | .panicked m => .panicked m
    | .fail e => .fail e
    | .ok v => setupLoop ul args ks (defInsert k v d)

/-- Go `Script.SetupArgs`: visit the variable names sorted by raw directive
value and resolve each in turn, mutating the mapping in place. -/
def setupArgs (ul : UserLookup) (args : List String) (d : Define) :
    SetupResult :=
  setupLoop ul args (sortedKeys d) d

/-- Insertion sort of rendered entries by key, under the byte-wise string
order: both `fmt` and `encoding/json` print Go maps with their keys
sorted. -/
def sortByKey (ps : List (String × String)) : List (String × String) :=
  List.insertionSort (fun a b => strLeB a.1.data b.1.data = true) ps

mutual
/-- Go `fmt.Sprint` on a script value: strings print as themselves, other
scalars as their token, sequences as `[e1 e2 ...]`, and mappings as
`map[k1:v1 k2:v2 ...]` with keys sorted. -/
def goSprint : Val → String
  | .str s => s
  | .raw s => s
  | .seq l => "[" ++ String.intercalate " " (goSprintList l) ++ "]"
  | .vmap m =>
    "map[" ++
      String.intercalate " "
        ((sortByKey (goSprintKVs m)).map (fun p => p.1 ++ ":" ++ p.2)) ++ "]"

/-- Elements of a sequence rendered by `fmt.Sprint`, in order. -/
def goSprintList : List Val → List String
  | [] => []
  | v :: vs => goSprint v :: goSprintList vs

/-- Entries of a mapping with their values rendered by `fmt.Sprint`, in
entry order (sorted afterwards by `sortByKey`). -/
def goSprintKVs : List (String × Val) → List (String × String)
  | [] => []
  | (k, v) :: es => (k, goSprint v) :: goSprintKVs es
end

/-- One character of a JSON string literal as `encoding/json` emits it
(HTML escaping on): quote, backslash and the HTML characters are escaped,
control characters become `\u00xx` (with `\n`, `\r`, `\t` shorthands),
everything else is copied. -/
def jsonEscapeChar (c : Char) : String :=
  if c = '"' then "\\\""
  else if c = '\\' then "\\\\"
  else if c = '\n' then "\\n"
  else if c = '\r' then "\\r"
  else if c = '\t' then "\\t"
  else if c = '<' then "\\u003c"
  else if c = '>' then "\\u003e"
  else if c = '&' then "\\u0026"
  else if c.toNat < 32 then
    let lo := c.toNat % 16
    let hi := c.toNat / 16
    let dig := fun (n : Nat) => Char.ofNat (if n < 10 then 48 + n else 87 + n)
    "\\u00" ++ String.mk [dig hi, dig lo]
  else if c.toNat = 8232 then "\\u2028"
  else if c.toNat = 8233 then "\\u2029"
  else String.mk [c]

/-- A JSON string literal for `s`. -/
def jsonQuote (s : String) : String :=
  "\"" ++ String.join (s.data.map jsonEscapeChar) ++ "\""

mutual
/-- Go `json.Marshal` of a script value (compact form): strings are quoted,
other scalars emit their token, sequences become arrays, and mappings
become objects with their keys sorted. -/
def jsonMarshal : Val → String
  | .str s => jsonQuote s
  | .raw s => s
  | .seq l => "[" ++ String.intercalate "," (jsonList l) ++ "]"
  | .vmap m =>
    "\x7b" ++
      String.intercalate ","
        ((sortByKey (jsonKVs m)).map (fun p => jsonQuote p.1 ++ ":" ++ p.2)) ++
      "\x7d"

/-- Elements of a JSON array, in order. -/
def jsonList : List Val → List String
  | [] => []
  | v :: vs => jsonMarshal v :: jsonList vs

/-- Entries of a JSON object with marshalled values, in entry order (sorted
afterwards by `sortByKey`). -/
def jsonKVs : List (String × Val) → List (String × String)
  | [] => []
  | (k, v) :: es => (k, jsonMarshal v) :: jsonKVs es
end

/-- The `--custom` arguments for one entry of the `custom` mapping: a nested
mapping is marshalled as `json:name=<compact JSON>`, any other value as
`name=<fmt.Sprint value>` (lines 427-443). -/
def customArgs (fname : String) (fvalue : Val) : List String :=
  match fvalue with
  | .vmap mv => ["--custom", "json:" ++ fname ++ "=" ++ jsonMarshal (.vmap mv)]
  | v => ["--custom", fname ++ "=" ++ goSprint v]

/-- The arguments one action field contributes (the `switch key` of the field
loop, lines 407-457): `action` contributes nothing; `args` appends its
elements (or its single value) as positionals; `custom` must be a mapping
and expands per `customArgs`; any other field emits `--key value`, once
per element for a sequence value. -/
def translateEntry (key : String) (value : Val) :
    Except ScriptError (List String) :=
  if key = "action" then .ok []
  else if key = "args" then
    match value with
    | .seq l => .ok (l.map goSprint)
    | v => .ok [goSprint v]
  else if key = "custom" then
    match value with
    | .vmap m => .ok (m.flatMap (fun e => customArgs e.1 e.2))
    | _ => .error .customNotMap
  else
    match value with
    | .seq l => .ok (l.flatMap (fun item => ["--" ++ key, goSprint item]))
    | v => .ok ["--" ++ key, goSprint v]

/-- The field loop of `runScript`: concatenate the contributions of every
entry of the (interpolated) action record, first error aborts. -/
def translateAction (action : List (String × Val)) :
    Except ScriptError (List String) :=
  match action with
  | [] => .ok []
  | (key, value) :: rest =>
    match translateEntry key value with
    | .error e => .error e
    | .ok a1 =>
      match translateAction rest with
      | .error e => .error e
      | .ok a2 => .ok (a1 ++ a2)

/-- The dispatch environment of the driver: whether `root.Find` locates the
subcommand, whether it supports `--no-input`, whether the caller passed
`--no-input`, and the synchronous execution of the assembled argument
vector, returning the issue key reported through the capture callback
(`issueKeyConsumer`; the zero value `""` when the callback was not
invoked) or the execution error. -/
structure ExecEnv where
  findOk : String → Bool
  hasNoInput : String → Bool
  noInput : Bool
  exec : List String → Except ScriptError String

/-- One iteration of the `runScript` action loop (lines 373-467): read the
`action` field from the raw record (missing or non-string is an error),
interpolate the whole record against the current mapping, locate the
subcommand, assemble `["issue", name]`, the optional `--no-input`, and the
translated fields, execute, and after a successful `create` or `clone`
write the captured key to `Define["issue_key"]`. -/
def runAction (env : ExecEnv) (d : Define) (action : List (String × Val)) :
    Except ScriptError Define :=
  match lookupVal "action" action with
  | none => .error .missingAction
  | some (.str name) =>
    match interpMapVals action d with
    | .error e => .error e
    | .ok iaction =>
      if env.findOk name then
        match translateAction iaction with
        | .error e => .error e
        | .ok flagArgs =>
          match
            env.exec
              (["issue", name] ++
                (if env.noInput && env.hasNoInput name then ["--no-input"]
                 else []) ++ flagArgs)
          with
          | .error e => .error e
          | .ok captured =>
            if name = "create" ∨ name = "clone" then
              .ok (defInsert "issue_key" captured d)
            else .ok d
      else .error (.subcommandNotFound name)
  | some nm => .error (.invalidAction (goSprint nm))

/-- The action loop of `runScript`: execute the actions in order, threading
the mapping, first error aborts the run. -/
def runActions (env : ExecEnv) :
    List (List (String × Val)) → Define → Except ScriptError Define
  | [], d => .ok d
  | a :: rest, d =>
    match runAction env d a with
    | .error e => .error e
    | .ok d2 => runActions env rest d2

/-- A decoded script: the `define` mapping and the ordered `actions`. -/
structure Script where
  define : Define
  actions : List (List (String × Val))

/-- Go `runScript` after YAML decoding: resolve the variables once, then run
the actions; a resolution panic is a panic of the whole run. -/
def runScript (ul : UserLookup) (env : ExecEnv) (args : List String)
    (s : Script) : SetupResult :=
  match setupArgs ul args s.define with
  | .panicked m => .panicked m
  | .fail e => .fail e
  | .ok d =>
    match runActions env s.actions d with
    | .error e => .fail e
    | .ok d2 => .ok d2

/-- A user-lookup oracle for concrete runs that has no terminal and no
client: every collaborator call fails. -/
def ulStub : UserLookup where
  selectUser := fun _ => .error (.externalFailure "no terminal")
  findMe := .error (.externalFailure "no client")
  findUser := fun _ => .error (.externalFailure "no client")

/-- A dispatch environment for concrete runs: every subcommand exists, none
supports `--no-input`, and execution succeeds reporting key `KEY-1`. -/
def envStub : ExecEnv where
  findOk := fun _ => true
  hasNoInput := fun _ => false
  noInput := false
  exec := fun _ => .ok "KEY-1"

theorem strLeB_total : ∀ a b : List Char, strLeB a b = true ∨ strLeB b a = true := by
  intro a
  induction a with
  | nil => intro b; left; rfl
  | cons x xs ih =>
    intro b
    cases b with
    | nil => right; rfl
    | cons y ys =>
      rcases Nat.lt_trichotomy x.toNat y.toNat with h1 | h1 | h1
      · left; simp [strLeB, h1]
      · rcases ih ys with h2 | h2
        · left; simp [strLeB, h1, h2]
        · right; simp [strLeB, h1.symm, h2]
      · right; simp [strLeB, h1]

theorem strLeB_trans :
    ∀ a b c : List Char, strLeB a b = true → strLeB b c = true → strLeB a c = true := by
  intro a
  induction a with
  | nil => intro b c _ _; rfl
  | cons x xs ih =>
    intro b c hab hbc
    cases b with
    | nil => simp [strLeB] at hab
    | cons y ys =>
      cases c with
      | nil => simp [strLeB] at hbc
      | cons z zs =>
        simp only [strLeB] at hab hbc ⊢
        rcases Nat.lt_trichotomy x.toNat y.toNat with h1 | h1 | h1
        · rcases Nat.lt_trichotomy y.toNat z.toNat with h2 | h2 | h2
          · rw [if_pos (by omega)]
          · rw [if_pos (by omega)]
          · rw [if_neg (by omega), if_pos h2] at hbc
            simp at hbc
        · rw [if_neg (by omega), if_neg (by omega)] at hab
          rcases Nat.lt_trichotomy y.toNat z.toNat with h2 | h2 | h2
          · rw [if_pos (by omega)]
          · rw [if_neg (by omega), if_neg (by omega)] at hbc
            rw [if_neg (by omega), if_neg (by omega)]
            exact ih ys zs hab hbc
          · rw [if_neg (by omega), if_pos h2] at hbc
            simp at hbc
        · rw [if_neg (by omega), if_pos h1] at hab
          simp at hab

theorem strLeB_nil_right : ∀ a : List Char, strLeB a [] = true → a = [] := by
  intro a h
  cases a with
  | nil => rfl
  | cons x xs => simp [strLeB] at h

instance (d : Define) : IsTotal String (keyLe d) :=
  ⟨fun a b => strLeB_total (valOf d a).data (valOf d b).data⟩

instance (d : Define) : IsTrans String (keyLe d) :=
  ⟨fun _ _ _ hab hbc => strLeB_trans _ _ _ hab hbc⟩

theorem string_eq_empty_of_data : ∀ s : String, s.data = [] → s = "" := by
  intro s h
  cases s with
  | mk l => cases h; rfl

theorem defLookup_of_mem_nodup :
    ∀ (d : Define) (k v : String), (d.map Prod.fst).Nodup → (k, v) ∈ d →
      defLookup k d = some v := by
  intro d
  induction d with
  | nil => intro k v _ h; simp at h
  | cons p rest ih =>
    intro k v hnd hmem
    obtain ⟨k0, v0⟩ := p
    simp only [List.map_cons, List.nodup_cons] at hnd
    rcases List.mem_cons.mp hmem with heq | hin
    · cases heq
      simp [defLookup]
    · have hne : k0 ≠ k := by
        intro he
        subst he
        exact hnd.1 (List.mem_map.mpr ⟨(k0, v), hin, rfl⟩)
      simp only [defLookup, if_neg hne]
      exact ih k v hnd.2 hin

/-- C4. For every Define mapping, the resolver visits the variables in the
order `sortedKeys` computes, which is a permutation of the declared names
arranged so that their raw directive values are in non-decreasing byte-wise
lexicographic order; the concrete example `{a: "z", b: "y"}` is visited as
`[b, a]`, which is neither declaration order nor name order `[a, b]`. -/
theorem sorted_keys_value_order :
    (∀ d : Define, (sortedKeys d).Perm (d.map Prod.fst)) ∧
    (∀ d : Define,
      List.Pairwise (fun a b : String => strLeB a.data b.data = true)
        ((sortedKeys d).map (valOf d))) ∧
    sortedKeys [("a", "z"), ("b", "y")] = ["b", "a"] ∧
    sortedKeys [("a", "z"), ("b", "y")] ≠
      ([("a", "z"), ("b", "y")] : Define).map Prod.fst := by
  refine ⟨fun d => List.perm_insertionSort _ _, fun d => ?_, by decide, by decide⟩
  have hs : List.Sorted (keyLe d) (sortedKeys d) :=
    List.sorted_insertionSort (keyLe d) (d.map Prod.fst)
  exact List.Pairwise.map (valOf d) (fun a b h => h) hs

/-- C9. For every Define mapping (with the unique keys a Go map guarantees)
containing a variable whose value is the empty string, `SetupArgs` reads
`val[0]` with no length guard and panics: the empty value sorts first, so
the very first visited variable triggers the out-of-range index. -/
theorem setupArgs_empty_value_panics :
    ∀ (d : Define) (ul : UserLookup) (args : List String) (k : String),
      (d.map Prod.fst).Nodup → (k, "") ∈ d →
      setupArgs ul args d = .panicked "index out of range" := by
  intro d ul args k hnd hmem
  have hk : defLookup k d = some "" := defLookup_of_mem_nodup d k "" hnd hmem
  have hvk : valOf d k = "" := by simp [valOf, hk]
  have hkmem : k ∈ d.map Prod.fst := List.mem_map.mpr ⟨(k, ""), hmem, rfl⟩
  have hperm : (sortedKeys d).Perm (d.map Prod.fst) := List.perm_insertionSort _ _
  have hsorted : List.Sorted (keyLe d) (sortedKeys d) :=
    List.sorted_insertionSort (keyLe d) (d.map Prod.fst)
  have hkin : k ∈ sortedKeys d := hperm.mem_iff.mpr hkmem
  rcases hks : sortedKeys d with _ | ⟨h0, t⟩
  · rw [hks] at hkin
    simp at hkin
  · rw [hks] at hkin hsorted
    have hval0 : valOf d h0 = "" := by
      rcases List.mem_cons.mp hkin with heq | hin
      · rw [← heq]
        exact hvk
      · have hle : keyLe d h0 k := (List.sorted_cons.mp hsorted).1 k hin
        unfold keyLe at hle
        rw [hvk] at hle
        exact string_eq_empty_of_data _ (strLeB_nil_right _ hle)
    show setupLoop ul args (sortedKeys d) d = _
    rw [hks]
    simp only [setupLoop]
    rw [hval0]
    rfl

/-- C1 evidence. The escaped-literal branch of `SetupArgs` assigns
`varname[1:]` where `varname` is already `val[1:]`, so a value `~~suffix`
resolves to `suffix`: BOTH leading sentinels are stripped, not one.  In
particular the full resolution of `{x: "~~foo"}` yields `foo`, where the
spec (and the branch's own `Escaped tilde` comment, read as the usual
doubling escape) promises `~foo`. -/
theorem escaped_literal_strips_both_sentinels :
    (∀ (ul : UserLookup) (args : List String) (key s : String),
      resolveValue ul args key ("~~" ++ s) = .ok s) ∧
    setupArgs ulStub [] [("x", "~~foo")] = .ok [("x", "foo")] := by
  constructor
  · intro ul args key s
    have hdata : ("~~" ++ s).data = '~' :: '~' :: s.data := rfl
    simp only [resolveValue, hdata]
    rfl
  · decide

theorem atoi_shape :
    ∀ (cs : List Char) (i : Int), atoiChars cs = some i →
      ∃ c cs2, cs = c :: cs2 ∧ (c = '+' ∨ c = '-' ∨ c.isDigit = true) := by
  intro cs i h
  cases cs with
  | nil => simp [atoiChars] at h
  | cons c cs2 =>
    refine ⟨c, cs2, rfl, ?_⟩
    by_cases h1 : c = '+'
    · exact Or.inl h1
    by_cases h2 : c = '-'
    · exact Or.inr (Or.inl h2)
    right; right
    simp only [atoiChars, if_neg (show ¬ (c = '+' ∨ c = '-') by tauto),
      List.isEmpty_cons] at h
    rw [if_neg (by simp)] at h
    by_cases h3 : (c :: cs2).all Char.isDigit = true
    · exact (List.all_eq_true.mp h3) c (List.mem_cons_self c cs2)
    · rw [if_neg h3] at h
      exact absurd h (by simp)

theorem atoi_ne_names :
    ∀ (rem : String) (ival : Int), atoiChars rem.data = some ival →
      rem.data.head? ≠ some '~' ∧
      String.mk rem.data ≠ "choose_user" ∧ String.mk rem.data ≠ "me" := by
  intro rem ival h
  obtain ⟨c, cs2, hcs, hc⟩ := atoi_shape rem.data ival h
  have hcprops : c ≠ '~' ∧ c ≠ 'c' ∧ c ≠ 'm' := by
    rcases hc with h1 | h1 | h1
    · rw [h1]; exact ⟨by decide, by decide, by decide⟩
    · rw [h1]; exact ⟨by decide, by decide, by decide⟩
    · refine ⟨?_, ?_, ?_⟩ <;> intro he <;> rw [he] at h1 <;> simp at h1
  refine ⟨?_, ?_, ?_⟩
  · rw [hcs]
    simp [hcprops.1]
  · intro he
    have hd := congrArg String.data he
    rw [hcs] at hd
    have hh := congrArg List.head? hd
    simp only [List.head?_cons] at hh
    exact hcprops.2.1 (Option.some.inj hh)
  · intro he
    have hd := congrArg String.data he
    rw [hcs] at hd
    have hh := congrArg List.head? hd
    simp only [List.head?_cons] at hh
    exact hcprops.2.2 (Option.some.inj hh)

theorem resolveValue_positional (ul : UserLookup) (args : List String)
    (key rem : String) (ival : Int) (h : atoiChars rem.data = some ival) :
    resolveValue ul args key ("~" ++ rem) =
      (if (args.length : Int) < ival then .fail (.missingArgument ival key)
       else if ival < 1 then .panicked "index out of range"
       else .ok (args.getD (ival - 1).toNat "")) := by
  obtain ⟨hh, hcu, hme⟩ := atoi_ne_names rem ival h
  have hdata : ("~" ++ rem).data = '~' :: rem.data := rfl
  simp only [resolveValue, hdata]
  simp only [if_true]
  rw [if_neg hh, if_neg hcu, if_neg hme, h]

/-- C5. Positional-argument resolution is 1-based: for a directive `~rem`
whose remainder parses (as `strconv.Atoi` does) to an integer `ival ≥ 1`,
resolution yields the `ival`-th command-line argument when at least `ival`
arguments were supplied, and the MissingArgument error otherwise. -/
theorem positional_arg_one_based :
    ∀ (ul : UserLookup) (args : List String) (key rem : String) (ival : Int),
      atoiChars rem.data = some ival → 1 ≤ ival →
      ((ival ≤ (args.length : Int) →
          resolveValue ul args key ("~" ++ rem) =
            .ok (args.getD (ival - 1).toNat "")) ∧
       ((args.length : Int) < ival →
          resolveValue ul args key ("~" ++ rem) =
            .fail (.missingArgument ival key))) := by
  intro ul args key rem ival h h1
  rw [resolveValue_positional ul args key rem ival h]
  constructor
  · intro hle
    rw [if_neg (by omega), if_neg (by omega)]
  · intro hlt
    rw [if_pos hlt]

/-- C5 witness: `~1` with one argument supplied resolves to that argument;
`~1` with no argument fails with MissingArgument. -/
theorem positional_arg_one_based_witness :
    resolveValue ulStub ["first"] "k" ("~" ++ "1") = .ok "first" ∧
    resolveValue ulStub [] "k" ("~" ++ "1") =
      .fail (.missingArgument 1 "k") := by
  constructor
  · have h := (positional_arg_one_based ulStub ["first"] "k" "1" 1 (by decide)
      (by decide)).1 (by decide)
    simpa using h
  · exact (positional_arg_one_based ulStub [] "k" "1" 1 (by decide)
      (by decide)).2 (by decide)

/-- C10. A directive whose remainder parses to a non-positive integer passes
the `len(args) < ival` guard (the argument count is never negative) and
then indexes `args[ival-1]` out of range: resolution panics rather than
returning UnknownDirective or MissingArgument. -/
theorem nonpositive_positional_panics :
    ∀ (ul : UserLookup) (args : List String) (key rem : String) (ival : Int),
      atoiChars rem.data = some ival → ival ≤ 0 →
      resolveValue ul args key ("~" ++ rem) = .panicked "index out of range" := by
  intro ul args key rem ival h h0
  rw [resolveValue_positional ul args key rem ival h]
  have hlen : (0 : Int) ≤ (args.length : Int) := Int.natCast_nonneg _
  rw [if_neg (by omega), if_pos (by omega)]

/-- C10 witness: the directive `~0` panics. -/
theorem nonpositive_positional_panics_witness :
    resolveValue ulStub ["a"] "k" ("~" ++ "0") = .panicked "index out of range" :=
  nonpositive_positional_panics ulStub ["a"] "k" "0" 0 (by decide) (by decide)

/-- C9 witness: the one-variable mapping `{x: ""}` panics. -/
theorem setupArgs_empty_value_panics_witness :
    setupArgs ulStub [] [("x", "")] = .panicked "index out of range" :=
  setupArgs_empty_value_panics [("x", "")] ulStub [] "x" (by decide) (by decide)

/-- C6. The `custom` field must hold a mapping (anything else is the
`'custom' should contain a map ...` error); each entry emits `--custom`
followed by `name=value` for a non-mapping value (stringified by
`fmt.Sprint`) and by `json:name=<compact JSON>` for a nested mapping; the
end-to-end scenario `{action: update, custom: {risk: {level: high}}}`
emits exactly `--custom json:risk=\x7b"level":"high"\x7d`. -/
theorem custom_field_translation :
    (∀ m : List (String × Val),
      translateEntry "custom" (.vmap m) =
        .ok (m.flatMap (fun e => customArgs e.1 e.2))) ∧
    (∀ (fname : String) (mv : List (String × Val)),
      customArgs fname (.vmap mv) =
        ["--custom", "json:" ++ fname ++ "=" ++ jsonMarshal (.vmap mv)]) ∧
    (∀ fname s : String,
      customArgs fname (.str s) = ["--custom", fname ++ "=" ++ s]) ∧
    (∀ v : Val, (∀ m, v ≠ .vmap m) →
      translateEntry "custom" v = .error .customNotMap) ∧
    translateAction
      [("action", .str "update"),
       ("custom", .vmap [("risk", .vmap [("level", .str "high")])])] =
      .ok ["--custom", "json:risk=\x7b\"level\":\"high\"\x7d"] := by
  refine ⟨?_, ?_, ?_, ?_, ?_⟩
  · intro m
    rfl
  · intro fname mv
    rfl
  · intro fname s
    simp [customArgs, goSprint]
  · intro v hv
    cases v with
    | str s => rfl
    | seq l => rfl
    | raw s => rfl
    | vmap m => exact absurd rfl (hv m)
  · simp [translateAction, translateEntry, customArgs, jsonMarshal, jsonKVs,
      sortByKey, jsonQuote, jsonEscapeChar, String.data]
    decide

/-- C6 witness: a non-mapping `custom` value is rejected. -/
theorem custom_field_translation_witness :
    translateEntry "custom" (.str "x") = .error .customNotMap := by
  have h := custom_field_translation
  exact h.2.2.2.1 (.str "x") (fun m hm => Val.noConfusion hm)

/-- C7. Every field other than `action`, `args` and `custom` emits `--k`
followed by the stringified element once per element of a sequence value,
preserving order, and `--k value` exactly once for a string scalar; the
end-to-end scenario `{action: label, labels: [a, b]}` emits exactly
`--labels a --labels b`. -/
theorem generic_field_translation :
    (∀ (k : String) (l : List Val), k ≠ "action" → k ≠ "args" → k ≠ "custom" →
      translateEntry k (.seq l) =
        .ok (l.flatMap (fun item => ["--" ++ k, goSprint item]))) ∧
    (∀ k s : String, k ≠ "action" → k ≠ "args" → k ≠ "custom" →
      translateEntry k (.str s) = .ok ["--" ++ k, s]) ∧
    translateAction
      [("action", .str "label"), ("labels", .seq [.str "a", .str "b"])] =
      .ok ["--labels", "a", "--labels", "b"] := by
  refine ⟨?_, ?_, ?_⟩
  · intro k l h1 h2 h3
    simp only [translateEntry, if_neg h1, if_neg h2, if_neg h3]
  · intro k s h1 h2 h3
    simp only [translateEntry, if_neg h1, if_neg h2, if_neg h3]
    simp [goSprint]
  · simp [translateAction, translateEntry, goSprint]

/-- C7 witness: a singleton `labels` field. -/
theorem generic_field_translation_witness :
    translateEntry "labels" (.str "a") = .ok ["--labels", "a"] := by
  have h := generic_field_translation
  simpa using h.2.1 "labels" "a" (by decide) (by decide) (by decide)

theorem interpList_length :
    ∀ (l : List Val) (d : Define) (l2 : List Val),
      interpList l d = .ok l2 → l2.length = l.length := by
  intro l d
  induction l with
  | nil =>
    intro l2 h
    simp only [interpList, Except.ok.injEq] at h
    subst h
    rfl
  | cons v vs ih =>
    intro l2 h
    simp only [interpList] at h
    cases hv : interpolateVars v d with
    | error e => rw [hv] at h; simp at h
    | ok nv =>
      rw [hv] at h
      cases hvs : interpList vs d with
      | error e => rw [hvs] at h; simp at h
      | ok nvs =>
        rw [hvs] at h
        simp only [Except.ok.injEq] at h
        subst h
        simp [ih nvs hvs]

theorem interpMapVals_keys :
    ∀ (m : List (String × Val)) (d : Define) (m2 : List (String × Val)),
      interpMapVals m d = .ok m2 → m2.map Prod.fst = m.map Prod.fst := by
  intro m d
  induction m with
  | nil =>
    intro m2 h
    simp only [interpMapVals, Except.ok.injEq] at h
    subst h
    rfl
  | cons p es ih =>
    intro m2 h
    obtain ⟨k, v⟩ := p
    simp only [interpMapVals] at h
    cases hv : interpolateVars v d with
    | error e => rw [hv] at h; simp at h
    | ok nv =>
      rw [hv] at h
      cases hes : interpMapVals es d with
      | error e => rw [hes] at h; simp at h
      | ok nes =>
        rw [hes] at h
        simp only [Except.ok.injEq] at h
        subst h
        simp [ih nes hes]

/-- C8. Structural shape preservation: interpolating a sequence of length N
yields a sequence of length N (elements in order), and interpolating a
mapping yields a mapping with exactly the same keys, in the same order. -/
theorem interpolation_preserves_shape :
    (∀ (l : List Val) (d : Define) (v : Val),
      interpolateVars (.seq l) d = .ok v →
      ∃ l2, v = .seq l2 ∧ l2.length = l.length) ∧
    (∀ (m : List (String × Val)) (d : Define) (v : Val),
      interpolateVars (.vmap m) d = .ok v →
      ∃ m2, v = .vmap m2 ∧ m2.map Prod.fst = m.map Prod.fst) := by
  constructor
  · intro l d v h
    simp only [interpolateVars] at h
    cases hl : interpList l d with
    | error e => rw [hl] at h; simp [Except.map] at h
    | ok l2 =>
      rw [hl] at h
      simp only [Functor.map, Except.map, Except.ok.injEq] at h
      exact ⟨l2, h.symm, interpList_length l d l2 hl⟩
  · intro m d v h
    simp only [interpolateVars] at h
    cases hm : interpMapVals m d with
    | error e => rw [hm] at h; simp [Except.map] at h
    | ok m2 =>
      rw [hm] at h
      simp only [Functor.map, Except.map, Except.ok.injEq] at h
      exact ⟨m2, h.symm, interpMapVals_keys m d m2 hm⟩

/-- C8 witness: a one-element sequence and a one-entry mapping keep their
shape under interpolation against the empty mapping. -/
theorem interpolation_preserves_shape_witness :
    (∃ l2, (Val.seq [Val.str "a"]) = Val.seq l2 ∧
      l2.length = ([Val.str "a"] : List Val).length) ∧
    (∃ m2, (Val.vmap [("k", Val.str "a")]) = Val.vmap m2 ∧
      m2.map Prod.fst = ([("k", Val.str "a")] : List (String × Val)).map Prod.fst) := by
  constructor
  · exact interpolation_preserves_shape.1 [Val.str "a"] [] (Val.seq [Val.str "a"])
      (by simp [interpolateVars, interpList, scanChars, isWordChar, String.data,
        Except.map])
  · exact interpolation_preserves_shape.2 [("k", Val.str "a")] []
      (Val.vmap [("k", Val.str "a")])
      (by simp [interpolateVars, interpMapVals, scanChars, isWordChar, String.data,
        Except.map])

theorem scanChars_cons_ne (d : Define) (c : Char) (rest : List Char)
    (hc : ¬ c = '$') :
    scanChars d (c :: rest) = (fun t => c :: t) <$> scanChars d rest := by
  rw [scanChars.eq_def]
  split
  next h => exact absurd h (by simp)
  next rest2 h => simp_all
  next c2 rest2 h => simp_all

theorem scanRefs_cons_ne (c : Char) (rest : List Char) (hc : ¬ c = '$') :
    scanRefs (c :: rest) = scanRefs rest := by
  rw [scanRefs.eq_def]
  split
  next h => exact absurd h (by simp)
  next rest2 h => simp_all
  next c2 rest2 h => simp_all

theorem scanChars_dollar_empty (d : Define) (rest : List Char)
    (h : (rest.takeWhile isWordChar).isEmpty = true) :
    scanChars d ('$' :: rest) = (fun t => '$' :: t) <$> scanChars d rest := by
  rw [scanChars.eq_def]
  simp [h]

theorem scanChars_dollar_name (d : Define) (rest : List Char)
    (h : ¬ (rest.takeWhile isWordChar).isEmpty = true) :
    scanChars d ('$' :: rest) =
      (match defLookup (String.mk (rest.takeWhile isWordChar)) d with
       | none => .error (.undefinedVariable (String.mk (rest.takeWhile isWordChar)))
       | some v => (fun t => v.data ++ t) <$>
           scanChars d (rest.drop (rest.takeWhile isWordChar).length)) := by
  rw [scanChars.eq_def]
  simp [h]

theorem scanRefs_dollar_empty (rest : List Char)
    (h : (rest.takeWhile isWordChar).isEmpty = true) :
    scanRefs ('$' :: rest) = scanRefs rest := by
  rw [scanRefs.eq_def]
  simp [h]

theorem scanRefs_dollar_name (rest : List Char)
    (h : ¬ (rest.takeWhile isWordChar).isEmpty = true) :
    scanRefs ('$' :: rest) =
      String.mk (rest.takeWhile isWordChar) ::
        scanRefs (rest.drop (rest.takeWhile isWordChar).length) := by
  rw [scanRefs.eq_def]
  simp [h]

theorem scanRefs_nil : scanRefs [] = [] := by
  rw [scanRefs.eq_def]

theorem scanChars_ok_refs (d : Define) :
    ∀ cs : List Char, ∀ res, scanChars d cs = .ok res →
      ∀ n ∈ scanRefs cs, ∃ w, defLookup n d = some w := by
  refine scanChars.induct d
    (fun cs => ∀ res, scanChars d cs = .ok res →
      ∀ n ∈ scanRefs cs, ∃ w, defLookup n d = some w) ?_ ?_ ?_ ?_ ?_
  · intro res h n hn
    rw [scanRefs_nil] at hn
    simp at hn
  · intro rest name hname ih res h n hn
    rw [scanChars_dollar_empty d rest hname] at h
    rw [scanRefs_dollar_empty rest hname] at hn
    cases hrest : scanChars d rest with
    | error e => rw [hrest] at h; simp [Functor.map, Except.map] at h
    | ok res2 => exact ih res2 hrest n hn
  · intro rest name hname hlook res h n hn
    rw [scanChars_dollar_name d rest hname, hlook] at h
    simp at h
  · intro rest name hname v hlook ih res h n hn
    rw [scanChars_dollar_name d rest hname, hlook] at h
    rw [scanRefs_dollar_name rest hname] at hn
    rcases List.mem_cons.mp hn with heq | hin
    · subst heq
      exact ⟨v, hlook⟩
    · cases hrest : scanChars d (rest.drop name.length) with
      | error e => rw [hrest] at h; simp [Functor.map, Except.map] at h
      | ok res2 => exact ih res2 hrest n hin
  · intro c rest hc ih res h n hn
    rw [scanChars_cons_ne d c rest hc] at h
    rw [scanRefs_cons_ne c rest hc] at hn
    cases hrest : scanChars d rest with
    | error e => rw [hrest] at h; simp [Functor.map, Except.map] at h
    | ok res2 => exact ih res2 hrest n hn

theorem scanChars_missing (d : Define) :
    ∀ cs : List Char, (∃ n, n ∈ scanRefs cs ∧ defLookup n d = none) →
      ∃ n, scanChars d cs = .error (.undefinedVariable n) ∧
        defLookup n d = none := by
  refine scanChars.induct d
    (fun cs => (∃ n, n ∈ scanRefs cs ∧ defLookup n d = none) →
      ∃ n, scanChars d cs = .error (.undefinedVariable n) ∧
        defLookup n d = none) ?_ ?_ ?_ ?_ ?_
  · rintro ⟨n, hn, _⟩
    rw [scanRefs_nil] at hn
    simp at hn
  · rintro rest name hname ih ⟨n, hn, hmiss⟩
    rw [scanRefs_dollar_empty rest hname] at hn
    obtain ⟨n2, hsc, hm2⟩ := ih ⟨n, hn, hmiss⟩
    refine ⟨n2, ?_, hm2⟩
    rw [scanChars_dollar_empty d rest hname, hsc]
    rfl
  · rintro rest name hname hlook ⟨n, hn, hmiss⟩
    refine ⟨String.mk name, ?_, hlook⟩
    rw [scanChars_dollar_name d rest hname, hlook]
  · rintro rest name hname v hlook ih ⟨n, hn, hmiss⟩
    rw [scanRefs_dollar_name rest hname] at hn
    rcases List.mem_cons.mp hn with heq | hin
    · subst heq
      rw [hlook] at hmiss
      exact Option.noConfusion hmiss
    · obtain ⟨n2, hsc, hm2⟩ := ih ⟨n, hin, hmiss⟩
      refine ⟨n2, ?_, hm2⟩
      rw [scanChars_dollar_name d rest hname, hlook, hsc]
      rfl
  · rintro c rest hc ih ⟨n, hn, hmiss⟩
    rw [scanRefs_cons_ne c rest hc] at hn
    obtain ⟨n2, hsc, hm2⟩ := ih ⟨n, hn, hmiss⟩
    refine ⟨n2, ?_, hm2⟩
    rw [scanChars_cons_ne d c rest hc, hsc]
    rfl

theorem interpMapVals_error_of_mem :
    ∀ (m : List (String × Val)) (d : Define) (k : String) (v : Val),
      (k, v) ∈ m → (∃ e, interpolateVars v d = .error e) →
      ∃ e2, interpMapVals m d = .error e2 := by
  intro m d
  induction m with
  | nil =>
    intro k v hmem _
    simp at hmem
  | cons p es ih =>
    intro k v hmem he
    obtain ⟨e, he⟩ := he
    obtain ⟨k0, v0⟩ := p
    cases hv0 : interpolateVars v0 d with
    | error e0 =>
      refine ⟨e0, ?_⟩
      simp only [interpMapVals]
      rw [hv0]
    | ok nv =>
      rcases List.mem_cons.mp hmem with heq | hin
      · have hv : v = v0 := congrArg Prod.snd heq
        rw [← hv] at hv0
        rw [he] at hv0
        exact Except.noConfusion hv0
      · obtain ⟨e2, he2⟩ := ih k v hin ⟨e, he⟩
        refine ⟨e2, ?_⟩
        simp only [interpMapVals]
        rw [hv0, he2]

/-- C3. Interpolating a string containing a reference to a name absent from
the resolved mapping fails with the UndefinedVariable error (never
substituting an empty string); success implies every referenced name is
present; and an erroring value anywhere in an action record makes the
interpolation of the whole record fail, aborting the action. -/
theorem undefined_variable_aborts :
    (∀ (s : String) (d : Define),
      (∃ n, n ∈ scanRefs s.data ∧ defLookup n d = none) →
      ∃ n, interpolateVars (.str s) d = .error (.undefinedVariable n) ∧
        defLookup n d = none) ∧
    (∀ (s : String) (d : Define) (v : Val),
      interpolateVars (.str s) d = .ok v →
      ∀ n ∈ scanRefs s.data, ∃ w, defLookup n d = some w) ∧
    (∀ (m : List (String × Val)) (d : Define) (k : String) (v : Val),
      (k, v) ∈ m → (∃ e, interpolateVars v d = .error e) →
      ∃ e2, interpolateVars (.vmap m) d = .error e2) := by
  refine ⟨?_, ?_, ?_⟩
  · intro s d hex
    obtain ⟨n, hsc, hmiss⟩ := scanChars_missing d s.data hex
    refine ⟨n, ?_, hmiss⟩
    simp only [interpolateVars]
    rw [hsc]
    rfl
  · intro s d v h n hn
    simp only [interpolateVars] at h
    cases hsc : scanChars d s.data with
    | error e => rw [hsc] at h; simp [Functor.map, Except.map] at h
    | ok res => exact scanChars_ok_refs d s.data res hsc n hn
  · intro m d k v hmem he
    obtain ⟨e2, he2⟩ := interpMapVals_error_of_mem m d k v hmem he
    refine ⟨e2, ?_⟩
    simp only [interpolateVars]
    rw [he2]
    rfl

/-- C3 witness: interpolating `a $x` against the empty mapping fails with
UndefinedVariable. -/
theorem undefined_variable_aborts_witness :
    ∃ n, interpolateVars (.str "a $x") [] =
        .error (.undefinedVariable n) ∧ defLookup n [] = none :=
  undefined_variable_aborts.1 "a $x" []
    ⟨"x", by simp [scanRefs, isWordChar, String.data], rfl⟩

theorem defLookup_defInsert_self :
    ∀ (d : Define) (k v : String), defLookup k (defInsert k v d) = some v := by
  intro d k v
  induction d with
  | nil => simp [defInsert, defLookup]
  | cons p rest ih =>
    obtain ⟨k0, v0⟩ := p
    by_cases h : k0 = k
    · subst h
      simp [defInsert, defLookup]
    · simp [defInsert, defLookup, h, ih]

theorem defLookup_defInsert_ne :
    ∀ (d : Define) (k key v : String), k ≠ key →
      defLookup k (defInsert key v d) = defLookup k d := by
  intro d k key v hne
  induction d with
  | nil => simp [defInsert, defLookup, Ne.symm hne]
  | cons p rest ih =>
    obtain ⟨k0, v0⟩ := p
    by_cases h : k0 = key
    · subst h
      simp [defInsert, defLookup, Ne.symm hne]
    · by_cases h2 : k0 = k
      · subst h2
        simp [defInsert, defLookup, h]
      · simp [defInsert, defLookup, h, h2, ih]

theorem defInsert_nil (key v : String) : defInsert key v [] = [(key, v)] := rfl

theorem defInsert_cons_eq (key v v0 : String) (rest : Define) :
    defInsert key v ((key, v0) :: rest) = (key, v) :: rest := by
  simp [defInsert]

theorem defInsert_cons_ne (key v k0 v0 : String) (rest : Define)
    (h : k0 ≠ key) :
    defInsert key v ((k0, v0) :: rest) = (k0, v0) :: defInsert key v rest := by
  simp [defInsert, h]

theorem keys_defInsert_subset :
    ∀ (d : Define) (key v k2 : String),
      k2 ∈ (defInsert key v d).map Prod.fst → k2 = key ∨ k2 ∈ d.map Prod.fst := by
  intro d key v
  induction d with
  | nil =>
    intro k2 h
    rw [defInsert_nil] at h
    simp only [List.map_cons, List.map_nil, List.mem_cons, List.not_mem_nil,
      or_false] at h
    exact Or.inl h
  | cons p rest ih =>
    obtain ⟨k0, v0⟩ := p
    intro k2 h
    by_cases hk : k0 = key
    · subst hk
      rw [defInsert_cons_eq] at h
      simp only [List.map_cons, List.mem_cons] at h
      rcases h with h | h
      · exact Or.inl h
      · exact Or.inr (by rw [List.map_cons]; exact List.mem_cons_of_mem _ h)
    · rw [defInsert_cons_ne key v k0 v0 rest hk] at h
      simp only [List.map_cons, List.mem_cons] at h
      rcases h with h | h
      · subst h
        exact Or.inr (by rw [List.map_cons]; exact List.mem_cons_self _ _)
      · rcases ih k2 h with h2 | h2
        · exact Or.inl h2
        · exact Or.inr (by rw [List.map_cons]; exact List.mem_cons_of_mem _ h2)

theorem keys_subset_defInsert :
    ∀ (d : Define) (key v k2 : String),
      k2 ∈ d.map Prod.fst → k2 ∈ (defInsert key v d).map Prod.fst := by
  intro d key v
  induction d with
  | nil =>
    intro k2 h
    simp at h
  | cons p rest ih =>
    obtain ⟨k0, v0⟩ := p
    intro k2 h
    simp only [List.map_cons, List.mem_cons] at h
    by_cases hk : k0 = key
    · subst hk
      rw [defInsert_cons_eq, List.map_cons]
      rcases h with h | h
      · exact List.mem_cons.mpr (Or.inl h)
      · exact List.mem_cons_of_mem _ h
    · rw [defInsert_cons_ne key v k0 v0 rest hk, List.map_cons]
      rcases h with h | h
      · exact List.mem_cons.mpr (Or.inl h)
      · exact List.mem_cons_of_mem _ (ih k2 h)

theorem runAction_ok_cases (env : ExecEnv) (d : Define)
    (a : List (String × Val)) (d2 : Define)
    (h : runAction env d a = .ok d2) :
    ∃ name, lookupVal "action" a = some (.str name) ∧
      (((name = "create" ∨ name = "clone") ∧
        ∃ captured cargs, env.exec cargs = .ok captured ∧
          d2 = defInsert "issue_key" captured d) ∨
       (¬ (name = "create" ∨ name = "clone") ∧ d2 = d)) := by
  rw [runAction.eq_def] at h
  split at h
  · exact absurd h (by simp)
  next _o nm hleq =>
    split at h
    · exact absurd h (by simp)
    next iaction hia =>
      split at h
      next hfind =>
        split at h
        · exact absurd h (by simp)
        next flagArgs htr =>
          split at h
          · exact absurd h (by simp)
          next captured hexec =>
            split at h
            next hcr =>
              exact ⟨nm, hleq,
                Or.inl ⟨hcr, captured, _, hexec, (Except.ok.inj h).symm⟩⟩
            next hcr =>
              exact ⟨nm, hleq, Or.inr ⟨hcr, (Except.ok.inj h).symm⟩⟩
      · exact absurd h (by simp)
  · exact absurd h (by simp)

theorem runActions_extends (env : ExecEnv) :
    ∀ (acts : List (List (String × Val))) (d d2 : Define),
      runActions env acts d = .ok d2 →
      (∀ k, k ≠ "issue_key" → defLookup k d2 = defLookup k d) ∧
      (∀ k, k ∈ d2.map Prod.fst → k = "issue_key" ∨ k ∈ d.map Prod.fst) ∧
      (∀ k, k ∈ d.map Prod.fst → k ∈ d2.map Prod.fst) := by
  intro acts
  induction acts with
  | nil =>
    intro d d2 h
    simp only [runActions, Except.ok.injEq] at h
    subst h
    exact ⟨fun k _ => rfl, fun k hk => Or.inr hk, fun k hk => hk⟩
  | cons a rest ih =>
    intro d d2 h
    simp only [runActions] at h
    cases ha : runAction env d a with
    | error e => rw [ha] at h; simp at h
    | ok dmid =>
      rw [ha] at h
      obtain ⟨h1, h2, h3⟩ := ih dmid d2 h
      obtain ⟨name, hl, hcases⟩ := runAction_ok_cases env d a dmid ha
      rcases hcases with ⟨_, captured, cargs, hexec, hdm⟩ | ⟨_, hdm⟩
      · subst hdm
        refine ⟨?_, ?_, ?_⟩
        · intro k hk
          rw [h1 k hk, defLookup_defInsert_ne d k "issue_key" captured hk]
        · intro k hk
          rcases h2 k hk with hk2 | hk2
          · exact Or.inl hk2
          · exact keys_defInsert_subset d "issue_key" captured k hk2
        · intro k hk
          exact h3 k (keys_subset_defInsert d "issue_key" captured k hk)
      · subst hdm
        exact ⟨h1, h2, h3⟩

/-- C2. After a successfully dispatched `create` or `clone` action the driver
sets `Define["issue_key"]` to the key the execution reported through the
capture callback; an action with any other name leaves the mapping
untouched; over a whole run the mapping is only ever extended, only by the
key `issue_key`, with every other key's binding unchanged; and the loop
threads the updated mapping into the rest of the run, so subsequent
actions interpolate against it. -/
theorem issue_key_only_mutation :
    (∀ (env : ExecEnv) (d : Define) (a : List (String × Val)) (d2 : Define)
        (name : String),
      lookupVal "action" a = some (.str name) →
      name ≠ "create" → name ≠ "clone" →
      runAction env d a = .ok d2 → d2 = d) ∧
    (∀ (env : ExecEnv) (d : Define) (a : List (String × Val)) (d2 : Define)
        (name : String),
      lookupVal "action" a = some (.str name) →
      (name = "create" ∨ name = "clone") →
      runAction env d a = .ok d2 →
      ∃ captured cargs, env.exec cargs = .ok captured ∧
        d2 = defInsert "issue_key" captured d ∧
        defLookup "issue_key" d2 = some captured) ∧
    (∀ (env : ExecEnv) (acts : List (List (String × Val))) (d d2 : Define),
      runActions env acts d = .ok d2 →
      (∀ k, k ≠ "issue_key" → defLookup k d2 = defLookup k d) ∧
      (∀ k, k ∈ d2.map Prod.fst → k = "issue_key" ∨ k ∈ d.map Prod.fst) ∧
      (∀ k, k ∈ d.map Prod.fst → k ∈ d2.map Prod.fst)) ∧
    (∀ (env : ExecEnv) (a : List (String × Val))
        (acts : List (List (String × Val))) (d : Define),
      runActions env (a :: acts) d =
        match runAction env d a with
        | .error e => .error e
        | .ok dmid => runActions env acts dmid) := by
  refine ⟨?_, ?_, fun env acts d d2 h => runActions_extends env acts d d2 h,
    fun env a acts d => rfl⟩
  · intro env d a d2 name hl h1 h2 h
    obtain ⟨name2, hl2, hcases⟩ := runAction_ok_cases env d a d2 h
    rw [hl] at hl2
    injection hl2 with hl3
    injection hl3 with hl4
    subst hl4
    rcases hcases with ⟨hcr, _⟩ | ⟨_, hdm⟩
    · tauto
    · exact hdm
  · intro env d a d2 name hl hcr h
    obtain ⟨name2, hl2, hcases⟩ := runAction_ok_cases env d a d2 h
    rw [hl] at hl2
    injection hl2 with hl3
    injection hl3 with hl4
    subst hl4
    rcases hcases with ⟨_, captured, cargs, hexec, hdm⟩ | ⟨hn, _⟩
    · refine ⟨captured, cargs, hexec, hdm, ?_⟩
      rw [hdm]
      exact defLookup_defInsert_self d "issue_key" captured
    · exact absurd hcr hn

/-- C2 witness: a one-action `create` run against the empty mapping extends
it by `issue_key` only, leaving every other key's binding unchanged. -/
theorem issue_key_only_mutation_witness :
    defLookup "x" [("issue_key", "KEY-1")] = defLookup "x" [] := by
  have h := issue_key_only_mutation
  exact (h.2.2.1 envStub [[("action", Val.str "create")]] [] [("issue_key", "KEY-1")]
    (by simp [runActions, runAction, lookupVal, interpMapVals, interpolateVars,
      scanChars, isWordChar, translateAction, translateEntry, envStub, defInsert,
      String.data])).1 "x" (by decide)
